import Mathlib

/-!
Shallow embedding of the SafeSched scheduling core (src/app.py).

Timestamps are modelled as integers counting minutes; a calendar day is
1440 minutes, so the hour component of a timestamp t is floor-division
t / 60 taken modulo 24, matching Python datetime for the single
configured timezone (Asia/Kolkata has no DST).  The simulated-calendar
dictionary st.session_state.sim_calendars, mapping participant name to
a list of busy start/end pairs, is modelled as an association list with
first-match lookup; the Python dict lookup with a default empty list is
busyOf below.  All durations are whole minutes, as in the source.
-/

namespace SafeSched

/-- Busy interval: a start/end pair of timestamps, as stored in the
simulated calendars. -/
abbrev Interval := Int × Int

/-- Availability store: participant name mapped to that participant's
list of busy intervals (the sim_calendars session dictionary). -/
abbrev Store := List (String × List Interval)

/-- Hour component of a timestamp measured in minutes since an epoch
midnight: Python datetime hour. -/
def hourOf (t : Int) : Int := (t.ediv 60).emod 24

/-- Midnight of the calendar day containing t. -/
def dayStart (t : Int) : Int := 1440 * t.ediv 1440

/-- Python replace on a datetime setting hour to h and minute, second,
microsecond to zero. -/
def atHour (h t : Int) : Int := dayStart t + 60 * h

/-- Dictionary lookup sim_calendars.get with default empty list. -/
def busyOf : Store → String → List Interval
  | [], _ => []
  | (q, l) :: rest, name => if q = name then l else busyOf rest name

/-- Source get_free_busy_for_participant (src/app.py lines 124-132):
busy intervals of the participant kept when they overlap the query
window, each clipped to the window; an interval is dropped exactly when
it ends strictly before the window start or starts strictly after the
window end. -/
def get_free_busy_for_participant (store : Store) (name : String)
    (window_start window_end : Int) : List Interval :=
  (busyOf store name).filterMap fun iv =>
    if iv.2 < window_start ∨ iv.1 > window_end then none
    else some (max iv.1 window_start, min iv.2 window_end)

/-- Working-hours test of src/app.py line 146: the slot start hour is
at least work_start and the hour component of the slot end is at most
work_end. -/
def work_hours_ok (work_start work_end dur cur : Int) : Bool :=
  decide (work_start ≤ hourOf cur) && decide (hourOf (cur + dur) ≤ work_end)

/-- Conflict test of src/app.py lines 147-153: some participant among
the request participants plus the implicit You has a nonempty clipped
busy list over the slot window. -/
def has_conflict (store : Store) (ps : List String) (dur cur : Int) : Bool :=
  (ps ++ ["You"]).any fun p =>
    !(get_free_busy_for_participant store p cur (cur + dur)).isEmpty

/-- While-loop of compute_candidate_slots (src/app.py lines 144-156),
with an explicit fuel argument bounding the number of iterations.  The
cursor advances by step each iteration, so for any step of at least one
minute the fuel chosen in compute_candidate_slots always reaches the
loop exit and the function returns exactly what the Python loop does. -/
def slotLoop (store : Store) (ps : List String)
    (dur endT step work_start work_end : Int) : Nat → Int → List Int
  | 0, _ => []
  | n + 1, cur =>
    if cur + dur ≤ endT then
      (if work_hours_ok work_start work_end dur cur
          && !has_conflict store ps dur cur then [cur] else [])
        ++ slotLoop store ps dur endT step work_start work_end n (cur + step)
    else []

/-- Source compute_candidate_slots (src/app.py lines 135-157).  The
cursor starts at work_start o'clock of the calendar day of date_from
and slots are collected while the slot end stays at or before date_to.
The store is an explicit argument standing for the ambient session
calendars the Python function reads.  The fuel exceeds the largest
possible iteration count for any positive step, since the cursor grows
by at least one per iteration. -/
def compute_candidate_slots (store : Store) (participants : List String)
    (duration_mins date_from date_to slot_step_mins work_start work_end : Int) :
    List Int :=
  slotLoop store participants duration_mins date_to slot_step_mins
    work_start work_end
    ((date_to - duration_mins - atHour work_start date_from).toNat + 1)
    (atHour work_start date_from)

/-- One step of the booking write of src/app.py line 275: the Python
setdefault and append, adding one interval at the end of the named
participant's calendar, creating the entry if absent. -/
def addBusy : Store → String → Interval → Store
  | [], name, iv => [(name, [iv])]
  | (q, l) :: rest, name, iv =>
    if q = name then (q, l ++ [iv]) :: rest
    else (q, l) :: addBusy rest name iv

/-- Calendar effect of the Finalize and Book handler (src/app.py lines
260-276): for every participant in the request list followed by You,
append the booked interval from slot to slot plus duration.  The
handler performs no conflict re-check before writing. -/
def finalizeBook (store : Store) (ps : List String) (slot dur : Int) : Store :=
  (ps ++ ["You"]).foldl (fun st p => addBusy st p (slot, slot + dur)) store

/-! Participant extraction of parse_request (src/app.py lines 59-66
and 110-112).  The Python code lowercases the text, searches for the
pattern of the literal characters w i t h and a space, followed by a
greedy nonempty run of lowercase letters, commas and whitespace; it
then replaces every occurrence of the three characters a n d by a
comma, splits on commas, strips and title-cases each nonempty token,
and falls back to the fixed list Priya, Alex when nothing was found. -/

/-- Whitespace in the sense of the Python regex class backslash-s. -/
def isPySpace (c : Char) : Bool :=
  c == ' ' || c == '\t' || c == '\n' || c == '\r' || c == '\x0b' || c == '\x0c'

/-- Character class of the participants regex: lowercase letters,
comma, whitespace. -/
def isClassChar (c : Char) : Bool :=
  ('a' ≤ c && c ≤ 'z') || c == ',' || isPySpace c

/-- Attempt to match the participants pattern at the head of the list:
the five characters of the literal with-plus-space, then a nonempty
greedy run of class characters, which is captured. -/
def captureAt : List Char → Option (List Char)
  | 'w' :: 'i' :: 't' :: 'h' :: ' ' :: rest =>
    let cap := rest.takeWhile isClassChar
    if cap.isEmpty then none else some cap
  | _ => none

/-- Regex search: try the pattern at every position left to right and
return the first capture. -/
def findWithClause : List Char → Option (List Char)
  | [] => none
  | c :: rest =>
    match captureAt (c :: rest) with
    | some cap => some cap
    | none => findWithClause rest

/-- Python string replace of the substring a n d by a comma, left to
right and non-overlapping. -/
def replaceAnd : List Char → List Char
  | 'a' :: 'n' :: 'd' :: rest => ',' :: replaceAnd rest
  | c :: rest => c :: replaceAnd rest
  | [] => []

/-- Python split on a comma separator; the empty string yields one
empty piece. -/
def splitComma : List Char → List (List Char)
  | [] => [[]]
  | ',' :: rest => [] :: splitComma rest
  | c :: rest =>
    match splitComma rest with
    | [] => [[c]]
    | t :: ts => (c :: t) :: ts

/-- Python strip: drop whitespace from both ends. -/
def stripChars (l : List Char) : List Char :=
  ((l.dropWhile isPySpace).reverse.dropWhile isPySpace).reverse

/-- Python title: uppercase a letter that does not follow a letter,
lowercase a letter that does, leave other characters alone.  The
boolean records whether the previous character was a letter. -/
def titleize : Bool → List Char → List Char
  | _, [] => []
  | prevAlpha, c :: rest =>
    if c.isAlpha then
      (if prevAlpha then c.toLower else c.toUpper) :: titleize true rest
    else c :: titleize false rest

/-- Participants field of parse_request (src/app.py lines 59-66 and
110-112): locate the with-clause in the lowercased text, replace the
substring a n d by a comma, split on commas, strip and title-case each
token keeping the nonempty ones, defaulting to Priya and Alex when the
resulting list is empty. -/
def parse_participants (text : String) : List String :=
  let tl := (text.toList).map Char.toLower
  let parts : List String :=
    match findWithClause tl with
    | some cap =>
      (splitComma (replaceAnd cap)).filterMap fun p =>
        let s := stripChars p
        if s.isEmpty then none else some (String.mk (titleize false s))
    | none => []
  if parts.isEmpty then ["Priya", "Alex"] else parts

/-- Modelled from the spec for the refinement comparison of claim C6:
the same extraction but splitting the captured clause on commas and on
the word made of the letters a n d only when it stands alone as a
whole whitespace-separated word, as the spec describes, rather than on
every substring occurrence. -/
def splitWordsAux (cur : List Char) : List Char → List (List Char)
  | [] => if cur.isEmpty then [] else [cur.reverse]
  | c :: rest =>
    if isPySpace c then
      if cur.isEmpty then splitWordsAux [] rest
      else cur.reverse :: splitWordsAux [] rest
    else splitWordsAux (c :: cur) rest

/-- Words of a character list, separated by whitespace. -/
def splitWords (l : List Char) : List (List Char) := splitWordsAux [] l

/-- Group a word list, cutting at each standalone word a n d. -/
def splitOnAndWord : List (List Char) → List (List (List Char))
  | [] => [[]]
  | w :: rest =>
    if w = ['a', 'n', 'd'] then [] :: splitOnAndWord rest
    else
      match splitOnAndWord rest with
      | [] => [[w]]
      | g :: gs => (w :: g) :: gs

/-- Join words with single spaces. -/
def joinSpace : List (List Char) → List Char
  | [] => []
  | [w] => w
  | w :: rest => w ++ ' ' :: joinSpace rest

/-- Modelled from the spec: participant extraction as claim C6 words
it, splitting the with-clause on commas and on the word a n d taken as
a whole word only, then title-casing each token, with the same
fallback. -/
def parse_participants_wordAnd (text : String) : List String :=
  let tl := (text.toList).map Char.toLower
  let parts : List String :=
    match findWithClause tl with
    | some cap =>
      ((splitComma cap).flatMap fun piece => splitOnAndWord (splitWords piece)).filterMap
        fun ws =>
          let s := stripChars (joinSpace ws)
          if s.isEmpty then none else some (String.mk (titleize false s))
    | none => []
  if parts.isEmpty then ["Priya", "Alex"] else parts

/-! Helper lemmas about the embedded operations. -/

/-- Conversion from list nonemptiness to the boolean used by the
conflict test. -/
lemma not_isEmpty_of_ne_nil {α : Type} {l : List α} (h : l ≠ []) :
    (!l.isEmpty) = true := by
  cases l with
  | nil => exact absurd rfl h
  | cons a l => rfl

/-- Conversion from the boolean used by the conflict test to list
nonemptiness. -/
lemma ne_nil_of_not_isEmpty {α : Type} {l : List α} (h : (!l.isEmpty) = true) :
    l ≠ [] := by
  cases l with
  | nil => simp at h
  | cons a l => simp

/-- Membership in the scan loop forces the working-hours test, the
absence of conflict, and the loop guard at that cursor. -/
lemma mem_slotLoop {store : Store} {ps : List String} {dur endT step ws we : Int} :
    ∀ {n : Nat} {cur c : Int}, c ∈ slotLoop store ps dur endT step ws we n cur →
      work_hours_ok ws we dur c = true ∧ has_conflict store ps dur c = false ∧
        c + dur ≤ endT := by
  intro n
  induction n with
  | zero => intro cur c hc; simp [slotLoop] at hc
  | succ n ih =>
    intro cur c hc
    rw [slotLoop] at hc
    by_cases hg : cur + dur ≤ endT
    · rw [if_pos hg] at hc
      rcases List.mem_append.mp hc with h1 | h2
      · by_cases hcond :
          (work_hours_ok ws we dur cur && !has_conflict store ps dur cur) = true
        · rw [if_pos hcond] at h1
          have hce : c = cur := List.mem_singleton.mp h1
          subst hce
          obtain ⟨hw, hnc⟩ := Bool.and_eq_true_iff.mp hcond
          refine ⟨hw, ?_, hg⟩
          simpa using hnc
        · rw [if_neg hcond] at h1
          simp at h1
      · exact ih h2
    · rw [if_neg hg] at hc
      simp at hc

/-- A cursor value at which a conflict holds is never in the scan
loop's output. -/
lemma not_mem_slotLoop_of_conflict {store : Store} {ps : List String}
    {dur endT step ws we c : Int}
    (hc : has_conflict store ps dur c = true) (n : Nat) (cur : Int) :
    c ∉ slotLoop store ps dur endT step ws we n cur := by
  intro hmem
  have h := (mem_slotLoop hmem).2.1
  rw [h] at hc
  exact Bool.false_ne_true hc

/-- When conflicts can only grow from one store to another, the scan
over the second store returns a subset of the scan over the first. -/
lemma slotLoop_subset {store store' : Store} {ps : List String}
    {dur endT step ws we : Int}
    (hmono : ∀ cur, has_conflict store ps dur cur = true →
      has_conflict store' ps dur cur = true) :
    ∀ (n : Nat) (cur c : Int), c ∈ slotLoop store' ps dur endT step ws we n cur →
      c ∈ slotLoop store ps dur endT step ws we n cur := by
  intro n
  induction n with
  | zero => intro cur c hc; simp [slotLoop] at hc
  | succ n ih =>
    intro cur c hc
    rw [slotLoop] at hc ⊢
    by_cases hg : cur + dur ≤ endT
    · rw [if_pos hg] at hc ⊢
      rcases List.mem_append.mp hc with h1 | h2
      · by_cases hcond :
          (work_hours_ok ws we dur cur && !has_conflict store' ps dur cur) = true
        · rw [if_pos hcond] at h1
          obtain ⟨hw, hnc⟩ := Bool.and_eq_true_iff.mp hcond
          have hnc' : has_conflict store' ps dur cur = false := by simpa using hnc
          have hstore : has_conflict store ps dur cur = false := by
            cases hx : has_conflict store ps dur cur with
            | false => rfl
            | true => rw [hmono cur hx] at hnc'; exact absurd hnc' (by simp)
          apply List.mem_append_left
          rw [if_pos (Bool.and_eq_true_iff.mpr ⟨hw, by simp [hstore]⟩)]
          exact h1
        · rw [if_neg hcond] at h1
          simp at h1
      · exact List.mem_append_right _ (ih _ _ h2)
    · rw [if_neg hg] at hc
      simp at hc

/-- Two participant lists with pointwise equal conflict tests give
equal scans. -/
lemma slotLoop_congr {store : Store} {ps ps' : List String}
    {dur endT step ws we : Int}
    (h : ∀ cur, has_conflict store ps' dur cur = has_conflict store ps dur cur) :
    ∀ (n : Nat) (cur : Int), slotLoop store ps' dur endT step ws we n cur =
      slotLoop store ps dur endT step ws we n cur := by
  intro n
  induction n with
  | zero => intro cur; rfl
  | succ n ih =>
    intro cur
    rw [slotLoop, slotLoop, h cur, ih (cur + step)]

/-- Effect of one append on any lookup: the named calendar gains the
interval at its end, the others are untouched. -/
lemma busyOf_addBusy (q : String) (iv : Interval) :
    ∀ (st : Store) (p : String),
      busyOf (addBusy st q iv) p =
        if p = q then busyOf st p ++ [iv] else busyOf st p := by
  intro st
  induction st with
  | nil =>
    intro p
    by_cases h : p = q
    · subst h
      simp [addBusy, busyOf]
    · have hs : ¬q = p := fun hq => h hq.symm
      simp [addBusy, busyOf, h, hs]
  | cons hd tl ih =>
    intro p
    obtain ⟨q0, l0⟩ := hd
    by_cases h1 : q0 = q
    · subst h1
      by_cases h2 : q0 = p
      · subst h2
        simp [addBusy, busyOf]
      · have hs : ¬p = q0 := fun hq => h2 hq.symm
        simp [addBusy, busyOf, h2, hs]
    · by_cases h2 : q0 = p
      · subst h2
        have hs : ¬q0 = q := h1
        simp [addBusy, busyOf, hs]
      · simp [addBusy, busyOf, h1, h2, ih p]

/-- Folding the booking append over a participant list appends one
copy of the interval per occurrence of the looked-up name. -/
lemma busyOf_foldl_addBusy (iv : Interval) :
    ∀ (l : List String) (st : Store) (p : String),
      busyOf (l.foldl (fun s q => addBusy s q iv) st) p =
        busyOf st p ++ List.replicate (l.count p) iv := by
  intro l
  induction l with
  | nil => intro st p; simp
  | cons q l ih =>
    intro st p
    rw [List.foldl_cons, ih, busyOf_addBusy]
    by_cases h : p = q
    · subst h
      rw [if_pos rfl, List.count_cons_self, List.append_assoc]
      simp [List.replicate_succ]
    · rw [if_neg h, List.count_cons_of_ne (fun hq => h hq)]

/-- Booking characterization: committing appends one copy of the
booked interval per occurrence of the participant in the list, and
leaves everything else alone. -/
lemma busyOf_finalizeBook (store : Store) (ps : List String) (slot dur : Int)
    (p : String) :
    busyOf (finalizeBook store ps slot dur) p =
      busyOf store p ++
        List.replicate ((ps ++ ["You"]).count p) (slot, slot + dur) :=
  busyOf_foldl_addBusy (slot, slot + dur) (ps ++ ["You"]) store p

/-- The booked interval appears in the calendar of every listed
participant after the commit. -/
lemma mem_busyOf_finalizeBook (store : Store) (ps : List String)
    (slot dur : Int) (p : String) (hp : p ∈ ps ++ ["You"]) :
    (slot, slot + dur) ∈ busyOf (finalizeBook store ps slot dur) p := by
  rw [busyOf_finalizeBook]
  refine List.mem_append_right _ (List.mem_replicate.mpr ⟨?_, rfl⟩)
  intro h0
  exact (List.count_eq_zero.mp h0) hp

/-- Lookup of a name with no entry in the store yields the empty busy
list. -/
lemma busyOf_eq_nil {name : String} :
    ∀ {store : Store}, (∀ kv ∈ store, kv.1 ≠ name) → busyOf store name = [] := by
  intro store
  induction store with
  | nil => intro _; rfl
  | cons hd tl ih =>
    intro h
    obtain ⟨q, l⟩ := hd
    have hq : q ≠ name := h (q, l) (List.mem_cons_self _ _)
    show (if q = name then l else busyOf tl name) = []
    rw [if_neg hq]
    exact ih fun kv hkv => h kv (List.mem_cons_of_mem _ hkv)

/-- A stored interval that neither ends before the window start nor
starts after the window end makes the clipped busy list nonempty. -/
lemma freeBusy_ne_nil_of_mem (store : Store) (name : String) (ws we : Int)
    (iv : Interval) (hm : iv ∈ busyOf store name) (h1 : ¬iv.2 < ws)
    (h2 : ¬iv.1 > we) :
    get_free_busy_for_participant store name ws we ≠ [] := by
  apply List.ne_nil_of_mem (a := (max iv.1 ws, min iv.2 we))
  unfold get_free_busy_for_participant
  exact List.mem_filterMap.mpr ⟨iv, hm, by rw [if_neg (not_or.mpr ⟨h1, h2⟩)]⟩

/-- A busy interval of You covering exactly the slot window makes the
slot conflict, whatever the request participants are. -/
lemma has_conflict_of_you (store : Store) (ps : List String) (d c : Int)
    (hd : 0 ≤ d) (hm : (c, c + d) ∈ busyOf store "You") :
    has_conflict store ps d c = true := by
  unfold has_conflict
  apply List.any_eq_true.mpr
  refine ⟨"You", List.mem_append_right _ (by simp), ?_⟩
  apply not_isEmpty_of_ne_nil
  refine freeBusy_ne_nil_of_mem store "You" c (c + d) (c, c + d) hm ?_ ?_
  · show ¬c + d < c
    omega
  · show ¬c > c + d
    omega

/-- Appending a busy interval anywhere keeps every nonempty clipped
busy list nonempty. -/
lemma freeBusy_addBusy_ne_nil (store : Store) (q : String) (iv : Interval)
    (p : String) (ws we : Int)
    (h : get_free_busy_for_participant store p ws we ≠ []) :
    get_free_busy_for_participant (addBusy store q iv) p ws we ≠ [] := by
  unfold get_free_busy_for_participant at h ⊢
  rw [busyOf_addBusy]
  by_cases hpq : p = q
  · rw [if_pos hpq, List.filterMap_append]
    intro hnil
    exact h (List.append_eq_nil.mp hnil).1
  · rw [if_neg hpq]
    exact h

/-- Appending a busy interval anywhere can only create conflicts,
never remove them. -/
lemma has_conflict_addBusy (store : Store) (q : String) (iv : Interval)
    (ps : List String) (dur cur : Int)
    (h : has_conflict store ps dur cur = true) :
    has_conflict (addBusy store q iv) ps dur cur = true := by
  unfold has_conflict at h ⊢
  rcases List.any_eq_true.mp h with ⟨p, hp, hb⟩
  apply List.any_eq_true.mpr
  refine ⟨p, hp, ?_⟩
  exact not_isEmpty_of_ne_nil
    (freeBusy_addBusy_ne_nil store q iv p cur (cur + dur)
      (ne_nil_of_not_isEmpty hb))

/-! Claim theorems. -/

/-- Claim C1, counterexample: with You busy from 09:00 to 10:00 of day
zero (minutes 540 to 600), a thirty-minute request over the window
from 09:00 to 18:00 and no other participants, the first candidate is
not 10:00 (minute 600): the overlap test keeps an interval that ends
exactly at the query window start, so the 10:00 slot also conflicts. -/
theorem c1_counterexample :
    (compute_candidate_slots [("You", [(540, 600)])] [] 30 540 1080 30 9 18).head?
      ≠ some 600 := by decide

/-- Claim C1, amended: in the scenario above the first candidate is
10:30 (minute 630), and 10:00 is not a candidate at all, because the
busy interval ending exactly at 10:00 still counts as overlapping the
10:00 to 10:30 query window. -/
theorem c1_first_candidate :
    (compute_candidate_slots [("You", [(540, 600)])] [] 30 540 1080 30 9 18).head?
        = some 630 ∧
      (600 : Int) ∉
        compute_candidate_slots [("You", [(540, 600)])] [] 30 540 1080 30 9 18 := by
  decide

/-- Claim C2, counterexample: with You busy over minutes 540 to 600,
the chosen slot 540 conflicts at commit time (the re-check query is
nonempty), yet the Finalize and Book handler still appends the booked
interval to the calendar of You: the commit books a conflicting slot
and raises nothing. -/
theorem c2_counterexample :
    get_free_busy_for_participant [("You", [(540, 600)])] "You" 540 570 ≠ [] ∧
      busyOf (finalizeBook [("You", [(540, 600)])] ["Priya"] 540 30) "You"
        = [(540, 600), (540, 570)] := by decide

/-- Claim C2, amended: the commit operation performs no re-validation
and never fails; for every store, participant list, slot and duration
it unconditionally appends the booked interval to the calendar of
every participant in the list plus You. -/
theorem c2_commit_unconditional (store : Store) (ps : List String)
    (slot dur : Int) :
    ∀ p ∈ ps ++ ["You"],
      (slot, slot + dur) ∈ busyOf (finalizeBook store ps slot dur) p :=
  fun p hp => mem_busyOf_finalizeBook store ps slot dur p hp

/-- Witness for the amended claim C2 at a concrete input. -/
theorem c2_commit_unconditional_witness :
    ((540 : Int), (570 : Int)) ∈ busyOf (finalizeBook [] [] 540 30) "You" := by
  have h := c2_commit_unconditional [] [] 540 30 "You" (by simp)
  simpa using h

/-- Claim C3: every candidate start returned by compute_candidate_slots
has hour at least work_start, the hour component of its end at most
work_end, and its end at most the window end. -/
theorem c3_window_containment (store : Store) (ps : List String)
    (dur dfrom dto step ws we c : Int)
    (hc : c ∈ compute_candidate_slots store ps dur dfrom dto step ws we) :
    ws ≤ hourOf c ∧ hourOf (c + dur) ≤ we ∧ c + dur ≤ dto := by
  unfold compute_candidate_slots at hc
  obtain ⟨hw, _, hle⟩ := mem_slotLoop hc
  unfold work_hours_ok at hw
  obtain ⟨h1, h2⟩ := Bool.and_eq_true_iff.mp hw
  exact ⟨of_decide_eq_true h1, of_decide_eq_true h2, hle⟩

/-- Witness for claim C3 at a concrete candidate. -/
theorem c3_window_containment_witness :
    (9 : Int) ≤ hourOf 540 ∧ hourOf (540 + 30) ≤ 18 ∧ (540 : Int) + 30 ≤ 1080 :=
  c3_window_containment [] [] 30 540 1080 30 9 18 540 (by decide)

/-- Claim C4, counterexample: the working-hours check of line 146
classifies a slot ending at 18:01 (minute 1081, hour component 18) as
valid, not invalid: with an empty store the 17:30 start of a 31-minute
slot passes the check and is returned as a candidate. -/
theorem c4_counterexample :
    (1050 : Int) + 31 = 18 * 60 + 1 ∧ work_hours_ok 9 18 31 1050 = true ∧
      (1050 : Int) ∈ compute_candidate_slots [] [] 31 540 1090 30 9 18 := by decide

/-- Claim C4, amended: the working-hours check compares only the hour
component of the slot end against work_end, so a slot ending exactly
at 18:00 and a slot ending at 18:01 are both classified valid; a slot
is classified invalid only once the hour component of its end exceeds
work_end, as for an end of 19:00. -/
theorem c4_hour_truncation :
    (∀ ws we cur d d' : Int, hourOf (cur + d) = hourOf (cur + d') →
        work_hours_ok ws we d cur = work_hours_ok ws we d' cur) ∧
      work_hours_ok 9 18 30 1050 = true ∧ work_hours_ok 9 18 31 1050 = true ∧
      work_hours_ok 9 18 90 1050 = false := by
  refine ⟨?_, by decide, by decide, by decide⟩
  intro ws we cur d d' h
  unfold work_hours_ok
  rw [h]

/-- Witness for the amended claim C4: two durations ending in the same
hour are classified identically. -/
theorem c4_hour_truncation_witness :
    work_hours_ok 9 18 31 1050 = work_hours_ok 9 18 45 1050 :=
  c4_hour_truncation.1 9 18 1050 31 45 (by decide)

/-- Claim C5: after a commit of candidate c with nonnegative duration
d, the booked interval is in the calendar of every participant in the
request list plus You, and c is no longer returned by a subsequent
compute_candidate_slots run with the same duration over any window. -/
theorem c5_commit_visibility (store : Store) (ps : List String)
    (c d dfrom dto step ws we : Int) (hd : 0 ≤ d) :
    (∀ p ∈ ps ++ ["You"],
        (c, c + d) ∈ busyOf (finalizeBook store ps c d) p) ∧
      c ∉ compute_candidate_slots (finalizeBook store ps c d) ps d
            dfrom dto step ws we := by
  constructor
  · intro p hp
    exact mem_busyOf_finalizeBook store ps c d p hp
  · unfold compute_candidate_slots
    exact not_mem_slotLoop_of_conflict
      (has_conflict_of_you (finalizeBook store ps c d) ps d c hd
        (mem_busyOf_finalizeBook store ps c d "You"
          (List.mem_append_right _ (by simp)))) _ _

/-- Witness for claim C5 at a concrete commit. -/
theorem c5_commit_visibility_witness :
    ((600 : Int), (630 : Int)) ∈ busyOf (finalizeBook [] ["Priya"] 600 30) "Priya" ∧
      (600 : Int) ∉ compute_candidate_slots (finalizeBook [] ["Priya"] 600 30)
          ["Priya"] 30 540 1080 30 9 18 := by
  have h := c5_commit_visibility [] ["Priya"] 600 30 540 1080 30 9 18 (by norm_num)
  exact ⟨by simpa using h.1 "Priya" (by simp), h.2⟩

/-- Claim C6, counterexample: on the text Meet with sandy the source
splits the captured clause on the substring of the three letters of
the word and, so it produces the tokens S and Y instead of the single
word-split participant Sandy. -/
theorem c6_counterexample :
    parse_participants "Meet with sandy" = ["S", "Y"] ∧
      parse_participants_wordAnd "Meet with sandy" = ["Sandy"] := by decide

/-- Claim C6, amended: the with-clause is split on commas and on every
substring occurrence of the three letters of the word and, even inside
a name, each token is title-cased, and when no clause is found the
participants default to the fixed fallback list Priya, Alex. -/
theorem c6_participants_split :
    (∀ text : String,
        findWithClause ((text.toList).map Char.toLower) = none →
          parse_participants text = ["Priya", "Alex"]) ∧
      parse_participants "sync with priya and alex" = ["Priya", "Alex"] ∧
      parse_participants "sync with priya, alex" = ["Priya", "Alex"] ∧
      parse_participants "Meet with sandy" = ["S", "Y"] := by
  refine ⟨?_, by decide, by decide, by decide⟩
  intro text h
  have h2 : findWithClause (List.map Char.toLower text.data) = none := h
  simp [parse_participants, h2]

/-- Witness for the amended claim C6: the fallback on a text without a
with-clause. -/
theorem c6_participants_split_witness :
    parse_participants "hello there" = ["Priya", "Alex"] :=
  c6_participants_split.1 "hello there" (by decide)

/-- Claim C7, counterexample: called directly with a window whose end
570 lies before its start 600, the slot finder raises nothing and
returns the nonempty result of its normal scan, since the cursor is
first moved back to 09:00 of the day. -/
theorem c7_counterexample :
    (570 : Int) ≤ 600 ∧
      compute_candidate_slots [] [] 30 600 570 30 9 18 = [540] := by decide

/-- Claim C7, amended: the slot finder performs no defensive input
validation; with a nonpositive duration it still runs the scan loop
and returns every conflict-free work-hour slot, here all nineteen
half-hour cursor positions of the day for a zero duration. -/
theorem c7_no_validation :
    compute_candidate_slots [] [] 0 540 1080 30 9 18 =
      [540, 570, 600, 630, 660, 690, 720, 750, 780, 810, 840,
        870, 900, 930, 960, 990, 1020, 1050, 1080] := by decide

/-- Claim C8: adding a busy interval to any participant of the store
can only remove candidates from a subsequent compute_candidate_slots
call, never add new ones: every candidate of the grown store is a
candidate of the original store. -/
theorem c8_conflict_monotonicity (store : Store) (q : String) (iv : Interval)
    (ps : List String) (dur dfrom dto step ws we c : Int)
    (hc : c ∈ compute_candidate_slots (addBusy store q iv) ps dur
            dfrom dto step ws we) :
    c ∈ compute_candidate_slots store ps dur dfrom dto step ws we := by
  unfold compute_candidate_slots at hc ⊢
  exact slotLoop_subset
    (fun cur h => has_conflict_addBusy store q iv ps dur cur h) _ _ _ hc

/-- Witness for claim C8 at a concrete store extension. -/
theorem c8_conflict_monotonicity_witness :
    (630 : Int) ∈ compute_candidate_slots [] [] 30 540 1080 30 9 18 :=
  c8_conflict_monotonicity [] "You" (540, 600) [] 30 540 1080 30 9 18 630
    (by decide)

/-- Claim C9: a participant with no entry in the store has an empty
clipped busy list for every window, and appending such a participant
to the request leaves the candidate computation unchanged: an unknown
name is treated as fully free. -/
theorem c9_unknown_participant (store : Store) (name : String)
    (h : ∀ kv ∈ store, kv.1 ≠ name) :
    (∀ ws we : Int, get_free_busy_for_participant store name ws we = []) ∧
      (∀ (ps : List String) (dur dfrom dto step wkS wkE : Int),
        compute_candidate_slots store (ps ++ [name]) dur dfrom dto step wkS wkE
          = compute_candidate_slots store ps dur dfrom dto step wkS wkE) := by
  have hb : busyOf store name = [] := busyOf_eq_nil h
  constructor
  · intro ws we
    unfold get_free_busy_for_participant
    rw [hb]
    rfl
  · intro ps dur dfrom dto step wkS wkE
    unfold compute_candidate_slots
    have hconf : ∀ cur, has_conflict store (ps ++ [name]) dur cur
        = has_conflict store ps dur cur := by
      intro cur
      unfold has_conflict
      have hfree : get_free_busy_for_participant store name cur (cur + dur) = [] := by
        unfold get_free_busy_for_participant
        rw [hb]
        rfl
      simp [List.any_append, hfree]
    exact slotLoop_congr hconf _ _

/-- Witness for claim C9 at a concrete store and unknown name. -/
theorem c9_unknown_participant_witness :
    get_free_busy_for_participant [("You", [(540, 600)])] "Ghost" 0 2000 = [] ∧
      compute_candidate_slots [("You", [(540, 600)])] (["Priya"] ++ ["Ghost"])
          30 540 1080 30 9 18
        = compute_candidate_slots [("You", [(540, 600)])] ["Priya"]
            30 540 1080 30 9 18 := by
  have h := c9_unknown_participant [("You", [(540, 600)])] "Ghost" (by decide)
  exact ⟨h.1 0 2000, h.2 ["Priya"] 30 540 1080 30 9 18⟩

/-- Claim C10: for the request with window start at 10:00 (minute 600)
and work start hour nine, the cursor is reset to 09:00 of the same day
(minute 540) and that earlier slot is returned as a candidate even
though it lies strictly before the window start. -/
theorem c10_cursor_reset :
    atHour 9 600 = 540 ∧ (9 : Int) < hourOf 600 ∧ (540 : Int) < 600 ∧
      (540 : Int) ∈ compute_candidate_slots [] [] 30 600 1080 30 9 18 := by
  decide

end SafeSched
